import Mathlib

/-!
Verification of the grid-search tuning harness of `tsaugur`
(`tsaugur/models/holt_winters.py`).

The external statistics library (`statsmodels.tsa.holtwinters.ExponentialSmoothing`)
and the metric functions are out-of-scope black boxes; the per-candidate
evaluation chain (fit on the training split, forecast over the validation
window, apply the error metric) is therefore abstracted as an oracle
`CandEval` that either returns a score or raises.  Scores are modelled by
the inductive type `Score`: a finite rational, positive infinity, or NaN,
matching the float values the Python code can record (`np.inf` on a caught
exception, NaN or a finite value from the metric).
-/

set_option maxRecDepth 8000

namespace Tsaugur

deriving instance DecidableEq for Except

/-- A Python dict value in the hyperparameter grid: a string or a boolean. -/
inductive PVal where
  | s (v : String)
  | b (v : Bool)
deriving DecidableEq

/-- A recorded candidate score: NaN, positive infinity, or a finite value. -/
inductive Score where
  | nan
  | inf
  | fin (q : ℚ)
deriving DecidableEq

/-- The value `np.nanargmin` compares after replacing NaN with `np.inf`:
NaN and infinity both become the top element. -/
def replaceNanTop : Score → WithTop ℚ
  | Score.nan => ⊤
  | Score.inf => ⊤
  | Score.fin q => (q : WithTop ℚ)

/-- Minimum of a list of extended rationals (`⊤` for the empty list). -/
def listMin (l : List (WithTop ℚ)) : WithTop ℚ := l.foldr min ⊤

/-- Whether every recorded score is NaN (the condition under which
`np.nanargmin` raises `ValueError`). -/
def allNan (l : List Score) : Bool := l.all (fun s => decide (s = Score.nan))

/-- Shallow embedding of `np.nanargmin` on a 1-D array: NaN entries are
replaced by `np.inf`, the first index attaining the minimum is returned,
and an all-NaN (or empty) input raises `ValueError`. -/
def nanargmin (l : List Score) : Except Unit Nat :=
  if allNan l then Except.error ()
  else Except.ok ((l.map replaceNanTop).findIdx
    (fun v => decide (v ≤ listMin (l.map replaceNanTop))))

/-- IEEE-style non-strict comparison on scores: NaN is incomparable. -/
def scoreLe : Score → Score → Bool
  | Score.nan, _ => false
  | _, Score.nan => false
  | _, Score.inf => true
  | Score.inf, Score.fin _ => false
  | Score.fin a, Score.fin b => decide (a ≤ b)

/-- IEEE-style strict comparison on scores: NaN is incomparable. -/
def scoreLt : Score → Score → Bool
  | Score.nan, _ => false
  | _, Score.nan => false
  | Score.inf, _ => false
  | Score.fin _, Score.inf => true
  | Score.fin a, Score.fin b => decide (a < b)

/-- The fixed hyperparameter grid `params_grid` of `HoltWinters._tune`. -/
def params_grid : List (String × List PVal) :=
  [("trend", [PVal.s "add", PVal.s "mul"]),
   ("seasonal", [PVal.s "add", PVal.s "mul"]),
   ("damped", [PVal.b true, PVal.b false]),
   ("use_boxcox", [PVal.b true, PVal.b false, PVal.s "log"]),
   ("remove_bias", [PVal.b true, PVal.b false])]

/-- `params_keys`: the grid's keys, in dict order. -/
def params_keys : List String := params_grid.map Prod.fst

/-- `params_values`: the grid's candidate-value lists, in dict order. -/
def params_values : List (List PVal) := params_grid.map Prod.snd

/-- `itertools.product`: the cartesian product, rightmost factor varying
fastest. -/
def cartProduct : List (List PVal) → List (List PVal)
  | [] => [[]]
  | vs :: rest => vs.flatMap (fun v => (cartProduct rest).map (fun tl => v :: tl))

/-- `params_permutations`: one dict per combination, in generation order.
A Python dict built by `dict(zip(params_keys, v))` is modelled as the
association list `params_keys.zip v`. -/
def params_permutations : List (List (String × PVal)) :=
  (cartProduct params_values).map (fun v => params_keys.zip v)

/-- The `i`-th candidate combination. -/
def permAt (i : Nat) : List (String × PVal) := params_permutations.getD i []

/-- A mutable Python dict of hyperparameters, as an association list. -/
abbrev PMap := List (String × PVal)

/-- Python dict assignment `d[k] = v`: update in place if the key exists
(preserving insertion order), otherwise append. -/
def pmapSet : PMap → String → PVal → PMap
  | [], k, v => [(k, v)]
  | kv :: t, k, v => if kv.1 = k then (k, v) :: t else kv :: pmapSet t k v

/-- Python `d.update(other)`: assign every key of `other` in order. -/
def pmapUpdate (m upd : PMap) : PMap :=
  upd.foldl (fun acc kv => pmapSet acc kv.1 kv.2) m

/-- Python dict lookup `d.get(k)`. -/
def pmapGet (m : PMap) (k : String) : Option PVal :=
  (m.find? (fun kv => kv.1 == k)).map Prod.snd

/-- The `period` argument: an integer or a named alias string. -/
inductive PeriodArg where
  | str (s : String)
  | int (n : Nat)

/-- Modelled from the spec: `period_to_int` lives in
`tsaugur.utils.data_utils`, which is not under src/.  The spec and the
docstring of `_tune` give the alias table: 1 or "annual"/"a", 4 or
"quarterly"/"q", 7 or "daily"/"d", 12 or "monthly"/"m", 24 or
"hourly"/"h", 52 or "weekly"/"w"; an unknown alias is a lookup failure. -/
def period_to_int (s : String) : Option Nat :=
  if s = "annual" ∨ s = "a" then some 1
  else if s = "quarterly" ∨ s = "q" then some 4
  else if s = "daily" ∨ s = "d" then some 7
  else if s = "monthly" ∨ s = "m" then some 12
  else if s = "hourly" ∨ s = "h" then some 24
  else if s = "weekly" ∨ s = "w" then some 52
  else none

/-- `data_utils.period_to_int(period) if type(period) == str else period`. -/
def resolvePeriod : PeriodArg → Option Nat
  | PeriodArg.str s => period_to_int s
  | PeriodArg.int n => some n

/-- Modelled from the spec: `train_val_split` lives in
`tsaugur.utils.model_utils`, which is not under src/.  The spec says it
splits the series into a leading training portion and a trailing
contiguous validation portion of the requested size. -/
def train_val_split (y : List ℚ) (valSize : Nat) : List ℚ × List ℚ :=
  (y.take (y.length - valSize), y.drop (y.length - valSize))

/-- `val_size = int(len(y) * .1) if val_size is None else val_size`.
For every machine-representable length, `int(len(y) * .1)` equals
`len(y) // 10` (the float `0.1` exceeds 1/10 by less than the rounding
slack at any integer boundary), so the default is embedded as `len / 10`. -/
def tuneValSize (y : List ℚ) (valSize? : Option Nat) : Nat :=
  valSize?.getD (y.length / 10)

/-- The train/validation split `_tune` performs. -/
def tuneSplit (y : List ℚ) (valSize? : Option Nat) : List ℚ × List ℚ :=
  train_val_split y (tuneValSize y valSize?)

/-- The per-candidate evaluation chain of `_tune` — construct
`ExponentialSmoothing` on the training split with the candidate's
`trend`/`seasonal`/`damped`, fit it with the candidate's
`use_boxcox`/`remove_bias`, forecast `len(y_val)` steps, and apply the
metric — abstracted as an oracle over (y_train, period, y_val, candidate)
that either returns a score or raises. -/
abbrev CandEval := List ℚ → Nat → List ℚ → List (String × PVal) → Except Unit Score

/-- The `scores` list built by the tuning loop: one entry per candidate in
generation order; a raised exception is recorded as `np.inf`. -/
def tuneScores (e : CandEval) (yT : List ℚ) (per : Nat) (yV : List ℚ) : List Score :=
  params_permutations.map (fun perm =>
    match e yT per yV perm with
    | Except.ok sc => sc
    | Except.error _ => Score.inf)

/-- `np.nanargmin(scores)`: the index of the selected candidate. -/
def tuneSel (e : CandEval) (yT : List ℚ) (per : Nat) (yV : List ℚ) : Except Unit Nat :=
  nanargmin (tuneScores e yT per yV)

/-- The score recorded for the selected candidate, when selection succeeds. -/
def selScore (e : CandEval) (yT : List ℚ) (per : Nat) (yV : List ℚ) : Option Score :=
  match tuneSel e yT per yV with
  | Except.error _ => none
  | Except.ok i => some ((tuneScores e yT per yV).getD i Score.inf)

/-- The mutable state of a `HoltWinters` model instance.  `μ` is the type
of the opaque fitted object returned by the external library. -/
structure HWState (μ : Type) where
  params : PMap
  period : Nat
  y : List ℚ
  model : Option μ
  name : String
  key : String

/-- Modelled from the spec: `base_model.BaseModel.__init__` is not under
src/; the spec's data model says a fresh instance holds a mutable `params`
mapping with a `tuned` boolean flag, not yet tuned. -/
def initState (μ : Type) : HWState μ :=
  { params := [("tuned", PVal.b false)], period := 0, y := [],
    model := none, name := "", key := "" }

/-- `HoltWinters._tune`: resolve the period, split off the validation
tail, score every candidate of the grid (exceptions recorded as `np.inf`),
select with `np.nanargmin`, merge the winner into `params` and set the
`tuned` flag. -/
def hw_tune {μ : Type} (e : CandEval) (st : HWState μ) (y : List ℚ)
    (p : PeriodArg) (valSize? : Option Nat) : Except Unit (HWState μ) :=
  match resolvePeriod p with
  | none => Except.error ()
  | some per =>
    match tuneSel e (tuneSplit y valSize?).1 per (tuneSplit y valSize?).2 with
    | Except.error er => Except.error er
    | Except.ok i =>
      Except.ok { st with
        period := per,
        params := pmapSet (pmapUpdate st.params (permAt i)) "tuned" (PVal.b true) }

/-- `HoltWinters.fit`: store the series, run `_tune`, then re-fit the
external model on the entire series with the winning hyperparameters read
back from `params`, and store the fitted object.  `ef` abstracts the
external `ExponentialSmoothing(y, seasonal_periods, trend, seasonal,
damped).fit(use_boxcox, remove_bias)` call. -/
def hw_fit {μ : Type} (e : CandEval)
    (ef : List ℚ → Nat → Option PVal → Option PVal → Option PVal → Option PVal → Option PVal → μ)
    (st : HWState μ) (y : List ℚ) (p : PeriodArg) (valSize? : Option Nat) :
    Except Unit (HWState μ) :=
  match hw_tune e
    { st with y := y, name := "Holt-Winters Exponential Smoothing", key := "holt_winters" }
    y p valSize? with
  | Except.error er => Except.error er
  | Except.ok st2 =>
    Except.ok { st2 with
      model := some (ef y st2.period
        (pmapGet st2.params "trend") (pmapGet st2.params "seasonal")
        (pmapGet st2.params "damped") (pmapGet st2.params "use_boxcox")
        (pmapGet st2.params "remove_bias")) }

/-- `HoltWinters.predict`: delegate to the fitted external model's
forecasting routine (abstracted as `efc`); without a fitted model there is
nothing to delegate to. -/
def hw_predict {μ : Type} (efc : μ → Nat → List ℚ) (st : HWState μ)
    (horizon : Nat) : Option (List ℚ) :=
  st.model.map (fun m => efc m horizon)

/-! ### Concrete oracles and states used to instantiate the theorems -/

/-- An evaluation oracle on which the first candidate (index 0) succeeds
with a NaN score and every other candidate raises. -/
def oracleNanInf : CandEval := fun _ _ _ pl =>
  if pl = permAt 0 then Except.ok Score.nan else Except.error ()

/-- An evaluation oracle on which exactly the second candidate (index 1)
succeeds, with recorded score `np.inf`, and every other candidate raises. -/
def oracleSingleInf : CandEval := fun _ _ _ pl =>
  if pl = permAt 1 then Except.ok Score.inf else Except.error ()

/-- An evaluation oracle on which exactly the third candidate (index 2)
succeeds, with finite score 5, and every other candidate raises. -/
def oracleSingleFin : CandEval := fun _ _ _ pl =>
  if pl = permAt 2 then Except.ok (Score.fin 5) else Except.error ()

/-- An evaluation oracle on which every candidate succeeds with score 0. -/
def oracleConstFin : CandEval := fun _ _ _ _ => Except.ok (Score.fin 0)

/-- An evaluation oracle on which every candidate succeeds with score NaN. -/
def oracleAllNan : CandEval := fun _ _ _ _ => Except.ok Score.nan

/-- An evaluation oracle on which every candidate raises. -/
def oracleAllFail : CandEval := fun _ _ _ _ => Except.error ()

/-- A trivial external fitting routine used to instantiate `hw_fit`. -/
def unitEf : List ℚ → Nat → Option PVal → Option PVal → Option PVal → Option PVal → Option PVal → Unit :=
  fun _ _ _ _ _ _ _ => ()

/-- An external forecasting routine honouring the horizon contract. -/
def replicateForecast : Unit → Nat → List ℚ := fun _ n => List.replicate n 0

/-- The state produced by `hw_tune oracleConstFin (initState Unit) [] (int 12) none`. -/
def tunedExample : HWState Unit :=
  { params := [("tuned", PVal.b true), ("trend", PVal.s "add"), ("seasonal", PVal.s "add"),
               ("damped", PVal.b true), ("use_boxcox", PVal.b true), ("remove_bias", PVal.b true)],
    period := 12, y := [], model := none, name := "", key := "" }

/-- The state produced by
`hw_fit oracleConstFin unitEf (initState Unit) [1, 2, 3] (int 12) none`. -/
def fitExample : HWState Unit :=
  { params := [("tuned", PVal.b true), ("trend", PVal.s "add"), ("seasonal", PVal.s "add"),
               ("damped", PVal.b true), ("use_boxcox", PVal.b true), ("remove_bias", PVal.b true)],
    period := 12, y := [1, 2, 3], model := some (),
    name := "Holt-Winters Exponential Smoothing", key := "holt_winters" }

/-! ### Generic facts about `listMin` and `nanargmin` -/

theorem listMin_nil : listMin [] = ⊤ := rfl

theorem listMin_cons (a : WithTop ℚ) (t : List (WithTop ℚ)) :
    listMin (a :: t) = min a (listMin t) := rfl

theorem listMin_le_getElem (l : List (WithTop ℚ)) (j : Nat) (hj : j < l.length) :
    listMin l ≤ l[j] := by
  induction l generalizing j with
  | nil => simp at hj
  | cons a t ih =>
    cases j with
    | zero => exact min_le_left a (listMin t)
    | succ j =>
      have hj' : j < t.length := by simpa using hj
      calc listMin (a :: t) ≤ listMin t := min_le_right a (listMin t)
        _ ≤ t[j] := ih j hj'
        _ = (a :: t)[j + 1] := rfl

theorem listMin_mem (l : List (WithTop ℚ)) (h : l ≠ []) : listMin l ∈ l := by
  induction l with
  | nil => exact absurd rfl h
  | cons a t ih =>
    cases t with
    | nil =>
      have : min a ⊤ = a := min_eq_left le_top
      simp [listMin_cons, listMin_nil, this]
    | cons b t2 =>
      rcases min_choice a (listMin (b :: t2)) with h1 | h1
      · rw [listMin_cons, h1]
        exact List.mem_cons_self a _
      · rw [listMin_cons, h1]
        exact List.mem_cons_of_mem a (ih (by simp))

theorem allNan_eq_false_of_getD (l : List Score) (j : Nat) (hj : j < l.length)
    (h : l.getD j Score.inf ≠ Score.nan) : allNan l = false := by
  cases E : allNan l with
  | false => rfl
  | true =>
    exfalso
    apply h
    have hall := List.all_eq_true.mp E
    have hmem : l.getD j Score.inf ∈ l := by
      rw [List.getD_eq_getElem l Score.inf hj]
      exact List.getElem_mem hj
    simpa using hall _ hmem

theorem nanargmin_spec (l : List Score) (hall : allNan l = false) :
    ∃ i, nanargmin l = Except.ok i ∧ i < l.length ∧
      (l.map replaceNanTop).getD i ⊤ = listMin (l.map replaceNanTop) ∧
      ∀ j < i, listMin (l.map replaceNanTop) < (l.map replaceNanTop).getD j ⊤ := by
  have hne : l ≠ [] := by
    intro h
    subst h
    simp [allNan] at hall
  have hmne : l.map replaceNanTop ≠ [] := by
    simp [hne]
  have hmem : listMin (l.map replaceNanTop) ∈ l.map replaceNanTop :=
    listMin_mem _ hmne
  have hex : ∃ x ∈ l.map replaceNanTop,
      (fun v => decide (v ≤ listMin (l.map replaceNanTop))) x = true :=
    ⟨listMin (l.map replaceNanTop), hmem, by simp⟩
  have hilt := List.findIdx_lt_length_of_exists hex
  refine ⟨(l.map replaceNanTop).findIdx
      (fun v => decide (v ≤ listMin (l.map replaceNanTop))), ?_, ?_, ?_, ?_⟩
  · simp [nanargmin, hall]
  · simpa using hilt
  · have hp := @List.findIdx_getElem _
      (fun v => decide (v ≤ listMin (l.map replaceNanTop))) (l.map replaceNanTop) hilt
    have hle : (l.map replaceNanTop)[(l.map replaceNanTop).findIdx
        (fun v => decide (v ≤ listMin (l.map replaceNanTop)))] ≤
        listMin (l.map replaceNanTop) := by simpa using hp
    rw [List.getD_eq_getElem _ _ hilt]
    exact le_antisymm hle (listMin_le_getElem _ _ hilt)
  · intro j hj
    have hjlt : j < (l.map replaceNanTop).length := Nat.lt_trans hj hilt
    have hnp := @List.not_of_lt_findIdx _
      (fun v => decide (v ≤ listMin (l.map replaceNanTop))) (l.map replaceNanTop) j hj
    have : ¬ ((l.map replaceNanTop)[j] ≤ listMin (l.map replaceNanTop)) := by
      simpa using hnp
    rw [List.getD_eq_getElem _ _ hjlt]
    exact lt_of_not_le this

/-! ### Bridging the IEEE-style score order and the NaN-replaced order -/

theorem scoreLe_iff (a b : Score) (ha : a ≠ Score.nan) (hb : b ≠ Score.nan) :
    scoreLe a b = true ↔ replaceNanTop a ≤ replaceNanTop b := by
  cases a <;> cases b <;>
    simp_all [scoreLe, replaceNanTop, WithTop.coe_le_coe, top_le_iff]

theorem scoreLt_iff (a b : Score) (ha : a ≠ Score.nan) (hb : b ≠ Score.nan) :
    scoreLt a b = true ↔ replaceNanTop a < replaceNanTop b := by
  cases a <;> cases b <;>
    simp_all [scoreLt, replaceNanTop, WithTop.coe_lt_coe, WithTop.coe_lt_top, lt_irrefl]

/-! ### Facts about the grid enumeration and the scores list -/

theorem params_permutations_length : params_permutations.length = 48 := by decide

theorem tuneScores_length (e : CandEval) (yT : List ℚ) (per : Nat) (yV : List ℚ) :
    (tuneScores e yT per yV).length = params_permutations.length :=
  List.length_map _ _

theorem tuneScores_getD (e : CandEval) (yT : List ℚ) (per : Nat) (yV : List ℚ)
    (j : Nat) (hj : j < params_permutations.length) :
    (tuneScores e yT per yV).getD j Score.inf =
      match e yT per yV (permAt j) with
      | Except.ok sc => sc
      | Except.error _ => Score.inf := by
  have hj2 : j < (tuneScores e yT per yV).length := by
    rw [tuneScores_length]; exact hj
  rw [List.getD_eq_getElem _ _ hj2]
  unfold tuneScores permAt
  rw [List.getElem_map]
  rw [List.getD_eq_getElem _ _ hj]

/-! ### Keys of the candidate dicts -/

theorem cartProduct_length_mem (L : List (List PVal)) :
    ∀ v ∈ cartProduct L, v.length = L.length := by
  induction L with
  | nil =>
    intro v hv
    simp only [cartProduct, List.mem_singleton] at hv
    simp [hv]
  | cons vs rest ih =>
    intro v hv
    simp only [cartProduct, List.mem_flatMap, List.mem_map] at hv
    obtain ⟨w, _, tl, htl, rfl⟩ := hv
    simp [ih tl htl]

theorem perm_keys (pl : List (String × PVal)) (h : pl ∈ params_permutations) :
    pl.map Prod.fst = params_keys := by
  simp only [params_permutations, List.mem_map] at h
  obtain ⟨v, hv, rfl⟩ := h
  have hlen : v.length = params_values.length := cartProduct_length_mem _ v hv
  apply List.map_fst_zip
  rw [hlen]
  decide

theorem permAt_mem (i : Nat) (hi : i < params_permutations.length) :
    permAt i ∈ params_permutations := by
  unfold permAt
  rw [List.getD_eq_getElem _ _ hi]
  exact List.getElem_mem hi

theorem permAt_keys (i : Nat) (hi : i < params_permutations.length) :
    (permAt i).map Prod.fst = params_keys :=
  perm_keys _ (permAt_mem i hi)

theorem params_keys_nodup : params_keys.Nodup := by decide

theorem tuned_not_mem_params_keys : "tuned" ∉ params_keys := by decide

/-! ### Facts about the dict operations -/

theorem pmapSet_nil (k : String) (v : PVal) : pmapSet [] k v = [(k, v)] := rfl

theorem pmapSet_cons (k0 : String) (v0 : PVal) (t : PMap) (k : String) (v : PVal) :
    pmapSet ((k0, v0) :: t) k v =
      if k0 = k then (k, v) :: t else (k0, v0) :: pmapSet t k v := rfl

theorem pmapGet_nil (k : String) : pmapGet [] k = none := rfl

theorem pmapGet_cons (k0 : String) (v0 : PVal) (t : PMap) (k : String) :
    pmapGet ((k0, v0) :: t) k = if k0 = k then some v0 else pmapGet t k := by
  by_cases h : k0 = k
  · simp [pmapGet, List.find?_cons_of_pos, h]
  · rw [if_neg h]
    unfold pmapGet
    rw [List.find?_cons_of_neg]
    simpa using h

theorem pmapGet_set_self (m : PMap) (k : String) (v : PVal) :
    pmapGet (pmapSet m k v) k = some v := by
  induction m with
  | nil => simp [pmapSet_nil, pmapGet_cons]
  | cons kv t ih =>
    obtain ⟨k0, v0⟩ := kv
    by_cases h : k0 = k
    · simp [pmapSet_cons, h, pmapGet_cons]
    · simp [pmapSet_cons, h, pmapGet_cons, ih]

theorem pmapGet_set_ne (m : PMap) (k k' : String) (v : PVal) (h : k' ≠ k) :
    pmapGet (pmapSet m k v) k' = pmapGet m k' := by
  have hne : k ≠ k' := fun hh => h hh.symm
  induction m with
  | nil => simp [pmapSet_nil, pmapGet_cons, pmapGet_nil, hne]
  | cons kv t ih =>
    obtain ⟨k0, v0⟩ := kv
    by_cases hh : k0 = k
    · rw [pmapSet_cons, if_pos hh, pmapGet_cons, pmapGet_cons, if_neg hne,
        if_neg (hh ▸ hne)]
    · rw [pmapSet_cons, if_neg hh, pmapGet_cons, pmapGet_cons, ih]

theorem pmapSet_keys_mem (m : PMap) (k : String) (v : PVal)
    (h : k ∈ m.map Prod.fst) :
    (pmapSet m k v).map Prod.fst = m.map Prod.fst := by
  induction m with
  | nil => simp at h
  | cons kv t ih =>
    obtain ⟨k0, v0⟩ := kv
    simp only [List.map_cons, List.mem_cons] at h
    by_cases hh : k0 = k
    · simp [pmapSet_cons, hh]
    · have h2 : k ∈ t.map Prod.fst := by
        rcases h with h | h
        · exact absurd h.symm hh
        · exact h
      simp [pmapSet_cons, hh, ih h2]

theorem pmapSet_keys_new (m : PMap) (k : String) (v : PVal)
    (h : k ∉ m.map Prod.fst) :
    (pmapSet m k v).map Prod.fst = m.map Prod.fst ++ [k] := by
  induction m with
  | nil => simp [pmapSet_nil]
  | cons kv t ih =>
    obtain ⟨k0, v0⟩ := kv
    simp only [List.map_cons, List.mem_cons] at h
    push_neg at h
    have hh : ¬ k0 = k := fun hk => h.1 hk.symm
    simp [pmapSet_cons, hh, ih h.2]

theorem pmapUpdate_nil (m : PMap) : pmapUpdate m [] = m := rfl

theorem pmapUpdate_cons (m : PMap) (kv : String × PVal) (t : PMap) :
    pmapUpdate m (kv :: t) = pmapUpdate (pmapSet m kv.1 kv.2) t := rfl

theorem pmapGet_update_not_mem (m pl : PMap) (k : String)
    (h : k ∉ pl.map Prod.fst) :
    pmapGet (pmapUpdate m pl) k = pmapGet m k := by
  induction pl generalizing m with
  | nil => rfl
  | cons kv t ih =>
    simp only [List.map_cons, List.mem_cons] at h
    push_neg at h
    rw [pmapUpdate_cons, ih _ h.2, pmapGet_set_ne _ _ _ _ h.1]

theorem pmapGet_update_mem (m pl : PMap) (k : String) (v : PVal)
    (hnd : (pl.map Prod.fst).Nodup) (hmem : (k, v) ∈ pl) :
    pmapGet (pmapUpdate m pl) k = some v := by
  induction pl generalizing m with
  | nil => simp at hmem
  | cons kv t ih =>
    obtain ⟨k0, v0⟩ := kv
    simp only [List.map_cons, List.nodup_cons] at hnd
    rcases List.mem_cons.mp hmem with heq | hmem2
    · have hk : k = k0 := congrArg Prod.fst heq
      have hv : v = v0 := congrArg Prod.snd heq
      subst hk
      subst hv
      rw [pmapUpdate_cons, pmapGet_update_not_mem _ _ _ hnd.1]
      exact pmapGet_set_self m k v
    · rw [pmapUpdate_cons]
      exact ih _ hnd.2 hmem2

theorem pmapUpdate_keys_disjoint (m pl : PMap)
    (hnd : (pl.map Prod.fst).Nodup)
    (hdisj : ∀ k ∈ pl.map Prod.fst, k ∉ m.map Prod.fst) :
    (pmapUpdate m pl).map Prod.fst = m.map Prod.fst ++ pl.map Prod.fst := by
  induction pl generalizing m with
  | nil => simp [pmapUpdate_nil]
  | cons kv t ih =>
    simp only [List.map_cons, List.nodup_cons] at hnd
    have h1 : kv.1 ∉ m.map Prod.fst := hdisj kv.1 (by simp)
    have hdisj2 : ∀ k ∈ t.map Prod.fst, k ∉ (pmapSet m kv.1 kv.2).map Prod.fst := by
      intro k hk
      rw [pmapSet_keys_new _ _ _ h1]
      simp only [List.mem_append, List.mem_singleton]
      push_neg
      refine ⟨hdisj k (by simp [hk]), fun hkk => hnd.1 (hkk ▸ hk)⟩
    rw [pmapUpdate_cons, ih _ hnd.2 hdisj2, pmapSet_keys_new _ _ _ h1]
    simp

/-! ### The parameter dict produced by a successful `_tune` -/

theorem tuneParams_keys (m : PMap) (i : Nat) (hi : i < params_permutations.length)
    (hkeys : m.map Prod.fst = ["tuned"]) :
    (pmapSet (pmapUpdate m (permAt i)) "tuned" (PVal.b true)).map Prod.fst =
      "tuned" :: params_keys := by
  have hk := permAt_keys i hi
  have hnd : ((permAt i).map Prod.fst).Nodup := hk ▸ params_keys_nodup
  have hdisj : ∀ k ∈ (permAt i).map Prod.fst, k ∉ m.map Prod.fst := by
    rw [hk, hkeys]
    intro k hkm
    simp only [List.mem_singleton]
    exact fun h => tuned_not_mem_params_keys (h ▸ hkm)
  have hupd := pmapUpdate_keys_disjoint m (permAt i) hnd hdisj
  have htm : "tuned" ∈ (pmapUpdate m (permAt i)).map Prod.fst := by
    rw [hupd, hkeys]
    simp
  rw [pmapSet_keys_mem _ _ _ htm, hupd, hkeys, hk]
  rfl

theorem tuneParams_get_winner (m : PMap) (i : Nat)
    (hi : i < params_permutations.length) :
    ∀ kv ∈ permAt i,
      pmapGet (pmapSet (pmapUpdate m (permAt i)) "tuned" (PVal.b true)) kv.1 =
        some kv.2 := by
  intro kv hkv
  have hk1 : kv.1 ∈ params_keys := by
    rw [← permAt_keys i hi]
    exact List.mem_map_of_mem Prod.fst hkv
  have hne : kv.1 ≠ "tuned" := fun h => tuned_not_mem_params_keys (h ▸ hk1)
  rw [pmapGet_set_ne _ _ _ _ hne]
  exact pmapGet_update_mem m (permAt i) kv.1 kv.2
    ((permAt_keys i hi) ▸ params_keys_nodup) hkv

/-! ### Characterising a successful `_tune` call -/

theorem hw_tune_ok_iff {μ : Type} (e : CandEval) (st st' : HWState μ) (y : List ℚ)
    (p : PeriodArg) (vs : Option Nat) :
    hw_tune e st y p vs = Except.ok st' ↔
      ∃ per i, resolvePeriod p = some per ∧
        tuneSel e (tuneSplit y vs).1 per (tuneSplit y vs).2 = Except.ok i ∧
        st' = { st with
                  period := per,
                  params := pmapSet (pmapUpdate st.params (permAt i)) "tuned" (PVal.b true) } := by
  constructor
  · intro h
    unfold hw_tune at h
    split at h
    · cases h
    · rename_i per hper
      split at h
      · cases h
      · rename_i i hsel
        exact ⟨per, i, hper, hsel, (Except.ok.inj h).symm⟩
  · rintro ⟨per, i, hper, hsel, rfl⟩
    unfold hw_tune
    simp only [hper, hsel]

/-! ### Further helper lemmas -/

theorem map_replaceNanTop_getD (l : List Score) (j : Nat) (hj : j < l.length) :
    (l.map replaceNanTop).getD j ⊤ = replaceNanTop (l.getD j Score.inf) := by
  have hj2 : j < (l.map replaceNanTop).length := by
    rw [List.length_map]
    exact hj
  rw [List.getD_eq_getElem _ _ hj2, List.getElem_map, List.getD_eq_getElem _ _ hj]

theorem getD_mem_of_lt (l : List Score) (j : Nat) (hj : j < l.length) :
    l.getD j Score.inf ∈ l := by
  rw [List.getD_eq_getElem _ _ hj]
  exact List.getElem_mem hj

theorem listMin_eq_top (l : List (WithTop ℚ)) (h : ∀ x ∈ l, x = ⊤) :
    listMin l = ⊤ := by
  induction l with
  | nil => rfl
  | cons a t ih =>
    rw [listMin_cons, h a (by simp), ih (fun x hx => h x (by simp [hx]))]
    exact min_self ⊤

theorem tuneSel_ok_lt (e : CandEval) (yT : List ℚ) (per : Nat) (yV : List ℚ)
    (i : Nat) (h : tuneSel e yT per yV = Except.ok i) :
    i < params_permutations.length := by
  unfold tuneSel at h
  have halln : allNan (tuneScores e yT per yV) = false := by
    cases E : allNan (tuneScores e yT per yV) with
    | false => rfl
    | true =>
      unfold nanargmin at h
      rw [E] at h
      simp at h
  obtain ⟨i2, hok2, hlt2, -, -⟩ := nanargmin_spec _ halln
  rw [hok2] at h
  have hi2 : i2 = i := Except.ok.inj h
  subst hi2
  rwa [tuneScores_length] at hlt2

/-! ### Claims -/

/-- Claim C6: for every series `y`, when no validation size is supplied,
`_tune` uses a validation window of size `floor(0.1 * len(y))`, and the
series is split into a leading training portion and a trailing contiguous
validation portion of exactly that requested size. -/
theorem c6_default_val_split (y : List ℚ) :
    tuneValSize y none = y.length / 10 ∧
    (tuneSplit y none).1 ++ (tuneSplit y none).2 = y ∧
    (tuneSplit y none).2.length = y.length / 10 ∧
    (tuneSplit y none).1.length = y.length - y.length / 10 := by
  refine ⟨rfl, ?_, ?_, ?_⟩
  · exact List.take_append_drop _ y
  · show (y.drop (y.length - y.length / 10)).length = y.length / 10
    rw [List.length_drop]
    exact Nat.sub_sub_self (Nat.div_le_self _ _)
  · show (y.take (y.length - y.length / 10)).length = y.length - y.length / 10
    rw [List.length_take]
    exact Nat.min_eq_left (Nat.sub_le _ _)

/-- Claim C8: `_tune` does not mutate the input series — the split merely
partitions it, and reassembling the training and validation portions gives
back exactly `y` — and the only instance fields `_tune` writes are its
parameter state (`params` and `period`): the stored series, fitted model,
name and key are unchanged. -/
theorem c8_tune_frame {μ : Type} (e : CandEval) (st st' : HWState μ) (y : List ℚ)
    (p : PeriodArg) (vs : Option Nat)
    (hok : hw_tune e st y p vs = Except.ok st') :
    st'.y = st.y ∧ st'.model = st.model ∧ st'.name = st.name ∧ st'.key = st.key ∧
    (tuneSplit y vs).1 ++ (tuneSplit y vs).2 = y := by
  obtain ⟨per, i, hper, hsel, rfl⟩ := (hw_tune_ok_iff e st st' y p vs).mp hok
  exact ⟨rfl, rfl, rfl, rfl, List.take_append_drop _ y⟩

/-- Witness for C8 at a concrete successful `_tune` run. -/
theorem c8_witness :
    tunedExample.y = (initState Unit).y ∧
    tunedExample.model = (initState Unit).model ∧
    tunedExample.name = (initState Unit).name ∧
    tunedExample.key = (initState Unit).key ∧
    (tuneSplit ([] : List ℚ) none).1 ++ (tuneSplit ([] : List ℚ) none).2 = ([] : List ℚ) :=
  c8_tune_frame oracleConstFin (initState Unit) tunedExample [] (PeriodArg.int 12) none rfl

/-- Claim C2: an exception raised while evaluating a candidate is caught
and the candidate is recorded with score `np.inf`; the scores list still
has one entry per candidate, and `_tune` returns normally instead of
propagating the per-candidate failure. -/
theorem c2_candidate_failure_caught {μ : Type} (e : CandEval) (st : HWState μ)
    (y : List ℚ) (p : PeriodArg) (vs : Option Nat) (per i : Nat)
    (hper : resolvePeriod p = some per)
    (hi : i < params_permutations.length)
    (herr : e (tuneSplit y vs).1 per (tuneSplit y vs).2 (permAt i) = Except.error ()) :
    (tuneScores e (tuneSplit y vs).1 per (tuneSplit y vs).2).getD i Score.inf = Score.inf ∧
    (tuneScores e (tuneSplit y vs).1 per (tuneSplit y vs).2).length =
      params_permutations.length ∧
    ∃ st', hw_tune e st y p vs = Except.ok st' := by
  have hscore : (tuneScores e (tuneSplit y vs).1 per (tuneSplit y vs).2).getD i Score.inf =
      Score.inf := by
    rw [tuneScores_getD _ _ _ _ i hi, herr]
  have hlen : i < (tuneScores e (tuneSplit y vs).1 per (tuneSplit y vs).2).length := by
    rw [tuneScores_length]
    exact hi
  have halln : allNan (tuneScores e (tuneSplit y vs).1 per (tuneSplit y vs).2) = false := by
    apply allNan_eq_false_of_getD _ i hlen
    rw [hscore]
    intro h
    cases h
  obtain ⟨j, hok, -, -, -⟩ := nanargmin_spec _ halln
  exact ⟨hscore, tuneScores_length _ _ _ _,
    _, (hw_tune_ok_iff e st _ y p vs).mpr ⟨per, j, hper, hok, rfl⟩⟩

/-- Witness for C2 at a concrete failing candidate. -/
theorem c2_witness :
    (tuneScores oracleAllFail (tuneSplit ([] : List ℚ) none).1 12
      (tuneSplit ([] : List ℚ) none).2).getD 3 Score.inf = Score.inf ∧
    (tuneScores oracleAllFail (tuneSplit ([] : List ℚ) none).1 12
      (tuneSplit ([] : List ℚ) none).2).length = params_permutations.length ∧
    ∃ st', hw_tune oracleAllFail (initState Unit) [] (PeriodArg.int 12) none =
      Except.ok st' :=
  c2_candidate_failure_caught oracleAllFail (initState Unit) [] (PeriodArg.int 12) none
    12 3 rfl (by decide) rfl

/-- Claim C4: if every candidate fails (so every recorded score is
`np.inf`), `_tune` selects index 0 — the first permutation of the
cartesian product — copies it into `params`, sets the tuned flag and
returns normally, raising no "no valid candidate" error. -/
theorem c4_all_fail_selects_first {μ : Type} (e : CandEval) (st : HWState μ)
    (y : List ℚ) (p : PeriodArg) (vs : Option Nat) (per : Nat)
    (hper : resolvePeriod p = some per)
    (hall : ∀ j < params_permutations.length,
      e (tuneSplit y vs).1 per (tuneSplit y vs).2 (permAt j) = Except.error ()) :
    tuneSel e (tuneSplit y vs).1 per (tuneSplit y vs).2 = Except.ok 0 ∧
    hw_tune e st y p vs = Except.ok { st with
      period := per,
      params := pmapSet (pmapUpdate st.params (permAt 0)) "tuned" (PVal.b true) } := by
  have hrep : tuneScores e (tuneSplit y vs).1 per (tuneSplit y vs).2 =
      List.replicate 48 Score.inf := by
    apply List.ext_getElem
    · rw [tuneScores_length, params_permutations_length]
      simp
    · intro j h1 h2
      have hj : j < params_permutations.length := by
        rw [params_permutations_length]
        simpa using h2
      have hgd := tuneScores_getD e (tuneSplit y vs).1 per (tuneSplit y vs).2 j hj
      rw [hall j hj] at hgd
      rw [List.getD_eq_getElem _ _ h1] at hgd
      rw [hgd, List.getElem_replicate]
  have hsel : tuneSel e (tuneSplit y vs).1 per (tuneSplit y vs).2 = Except.ok 0 := by
    unfold tuneSel
    rw [hrep]
    decide
  exact ⟨hsel, (hw_tune_ok_iff e st _ y p vs).mpr ⟨per, 0, hper, hsel, rfl⟩⟩

/-- Witness for C4 at a concrete all-failing run. -/
theorem c4_witness :
    tuneSel oracleAllFail (tuneSplit ([] : List ℚ) none).1 7
      (tuneSplit ([] : List ℚ) none).2 = Except.ok 0 ∧
    hw_tune oracleAllFail (initState Unit) [] (PeriodArg.int 7) none =
      Except.ok { initState Unit with
        period := 7,
        params := pmapSet (pmapUpdate (initState Unit).params (permAt 0)) "tuned"
          (PVal.b true) } :=
  c4_all_fail_selects_first oracleAllFail (initState Unit) [] (PeriodArg.int 7) none 7
    rfl (fun _ _ => rfl)

/-- Claim C1 is false as stated: on an input where candidate 0 succeeds
with a NaN score and every other candidate raises (scoring `np.inf`),
`np.nanargmin` replaces NaN by `inf`, every replaced score ties at `inf`,
and index 0 is returned — but its recorded score NaN is not a minimum of
the recorded scores (NaN compares below nothing). -/
theorem c1_counterexample :
    tuneSel oracleNanInf [] 12 [] = Except.ok 0 ∧
    ¬ (∀ j < (tuneScores oracleNanInf [] 12 []).length,
        scoreLe ((tuneScores oracleNanInf [] 12 []).getD 0 Score.inf)
          ((tuneScores oracleNanInf [] 12 []).getD j Score.inf) = true) := by
  decide

/-- Claim C1 (amended): provided no recorded score is NaN, `_tune` selects
a candidate whose recorded score is less than or equal to every recorded
score, and any earlier candidate's score is strictly larger — the first
minimum in enumeration order wins. -/
theorem c1_min_first_of_no_nan (e : CandEval) (yT : List ℚ) (per : Nat) (yV : List ℚ)
    (hnn : ∀ s ∈ tuneScores e yT per yV, s ≠ Score.nan) :
    ∃ i, tuneSel e yT per yV = Except.ok i ∧
      i < (tuneScores e yT per yV).length ∧
      (∀ j < (tuneScores e yT per yV).length,
        scoreLe ((tuneScores e yT per yV).getD i Score.inf)
          ((tuneScores e yT per yV).getD j Score.inf) = true) ∧
      (∀ j < i, scoreLt ((tuneScores e yT per yV).getD i Score.inf)
          ((tuneScores e yT per yV).getD j Score.inf) = true) := by
  have hpos : 0 < (tuneScores e yT per yV).length := by
    rw [tuneScores_length, params_permutations_length]
    simp
  have halln : allNan (tuneScores e yT per yV) = false :=
    allNan_eq_false_of_getD _ 0 hpos (hnn _ (getD_mem_of_lt _ 0 hpos))
  obtain ⟨i, hok, hilt, hmin, hfirst⟩ := nanargmin_spec _ halln
  have e1 : replaceNanTop ((tuneScores e yT per yV).getD i Score.inf) =
      listMin ((tuneScores e yT per yV).map replaceNanTop) := by
    rw [← map_replaceNanTop_getD _ _ hilt]
    exact hmin
  refine ⟨i, hok, hilt, ?_, ?_⟩
  · intro j hj
    have hjm : j < ((tuneScores e yT per yV).map replaceNanTop).length := by
      rw [List.length_map]
      exact hj
    rw [scoreLe_iff _ _ (hnn _ (getD_mem_of_lt _ i hilt)) (hnn _ (getD_mem_of_lt _ j hj)),
      e1, ← map_replaceNanTop_getD _ _ hj, List.getD_eq_getElem _ _ hjm]
    exact listMin_le_getElem _ _ hjm
  · intro j hj
    have hjlen : j < (tuneScores e yT per yV).length := Nat.lt_trans hj hilt
    rw [scoreLt_iff _ _ (hnn _ (getD_mem_of_lt _ i hilt)) (hnn _ (getD_mem_of_lt _ j hjlen)),
      e1, ← map_replaceNanTop_getD _ _ hjlen]
    exact hfirst j hj

/-- Witness for the amended C1 at a concrete NaN-free run. -/
theorem c1_witness :
    ∃ i, tuneSel oracleConstFin [] 12 [] = Except.ok i ∧
      i < (tuneScores oracleConstFin [] 12 []).length ∧
      (∀ j < (tuneScores oracleConstFin [] 12 []).length,
        scoreLe ((tuneScores oracleConstFin [] 12 []).getD i Score.inf)
          ((tuneScores oracleConstFin [] 12 []).getD j Score.inf) = true) ∧
      (∀ j < i, scoreLt ((tuneScores oracleConstFin [] 12 []).getD i Score.inf)
          ((tuneScores oracleConstFin [] 12 []).getD j Score.inf) = true) :=
  c1_min_first_of_no_nan oracleConstFin [] 12 [] (by decide)

/-- Claim C3 is false as stated: with exactly one succeeding candidate
(index 1) whose recorded score happens to be `np.inf`, every replaced
score ties at `inf` and `np.nanargmin` returns index 0, not the
succeeding index 1. -/
theorem c3_counterexample :
    oracleSingleInf [] 12 [] (permAt 1) = Except.ok Score.inf ∧
    (∀ j < params_permutations.length, j ≠ 1 →
      oracleSingleInf [] 12 [] (permAt j) = Except.error ()) ∧
    tuneSel oracleSingleInf [] 12 [] ≠ Except.ok 1 ∧
    tuneSel oracleSingleInf [] 12 [] = Except.ok 0 := by
  decide

/-- Claim C3 (amended): if exactly one candidate succeeds and its recorded
score is finite (neither NaN nor `np.inf`), that candidate is selected
regardless of the finite value of its score. -/
theorem c3_single_finite_success_selected (e : CandEval) (yT : List ℚ) (per : Nat)
    (yV : List ℚ) (i : Nat) (q : ℚ)
    (hi : i < params_permutations.length)
    (hsucc : e yT per yV (permAt i) = Except.ok (Score.fin q))
    (hfail : ∀ j < params_permutations.length, j ≠ i →
      e yT per yV (permAt j) = Except.error ()) :
    tuneSel e yT per yV = Except.ok i := by
  have hlen : (tuneScores e yT per yV).length = params_permutations.length :=
    tuneScores_length e yT per yV
  have hsc : ∀ j, j < params_permutations.length →
      (tuneScores e yT per yV).getD j Score.inf =
        if j = i then Score.fin q else Score.inf := by
    intro j hj
    rw [tuneScores_getD e yT per yV j hj]
    by_cases h : j = i
    · subst h
      rw [hsucc]
      simp
    · rw [hfail j hj h]
      simp [h]
  have halln : allNan (tuneScores e yT per yV) = false := by
    apply allNan_eq_false_of_getD _ i (by rw [hlen]; exact hi)
    rw [hsc i hi]
    simp
  obtain ⟨k, hok, hklt, hmin, -⟩ := nanargmin_spec _ halln
  have hklen : k < params_permutations.length := by
    rw [← hlen]
    exact hklt
  by_cases hk : k = i
  · subst hk
    exact hok
  · exfalso
    have hilen : i < (tuneScores e yT per yV).length := by
      rw [hlen]
      exact hi
    have him : i < ((tuneScores e yT per yV).map replaceNanTop).length := by
      rw [List.length_map]
      exact hilen
    have hvk : ((tuneScores e yT per yV).map replaceNanTop).getD k ⊤ = ⊤ := by
      rw [map_replaceNanTop_getD _ _ hklt, hsc k hklen, if_neg hk]
      rfl
    have hvi : ((tuneScores e yT per yV).map replaceNanTop).getD i ⊤ =
        (q : WithTop ℚ) := by
      rw [map_replaceNanTop_getD _ _ hilen, hsc i hi, if_pos rfl]
      rfl
    have h1 : listMin ((tuneScores e yT per yV).map replaceNanTop) ≤ (q : WithTop ℚ) := by
      rw [← hvi, List.getD_eq_getElem _ _ him]
      exact listMin_le_getElem _ _ him
    rw [hvk] at hmin
    rw [← hmin] at h1
    exact WithTop.coe_ne_top (top_le_iff.mp h1)

/-- Witness for the amended C3 at a concrete single-finite-success run. -/
theorem c3_witness : tuneSel oracleSingleFin [] 12 [] = Except.ok 2 :=
  c3_single_finite_success_selected oracleSingleFin [] 12 [] 2 5 (by decide)
    (by decide) (by decide)

/-- Claim C5: whenever `_tune` returns (from a fresh instance whose only
parameter key is the tuned flag), the resulting `params` has keys exactly
the grid's keys plus the tuned flag, the tuned flag is `True`, and this
happened only after selection over the scored grid succeeded and the best
combination was copied into `params`. -/
theorem c5_params_keys_tuned {μ : Type} (e : CandEval) (st st' : HWState μ)
    (y : List ℚ) (p : PeriodArg) (vs : Option Nat)
    (hkeys : st.params.map Prod.fst = ["tuned"])
    (hok : hw_tune e st y p vs = Except.ok st') :
    st'.params.map Prod.fst =
      ["tuned", "trend", "seasonal", "damped", "use_boxcox", "remove_bias"] ∧
    pmapGet st'.params "tuned" = some (PVal.b true) ∧
    ∃ i, i < params_permutations.length ∧
      tuneSel e (tuneSplit y vs).1 st'.period (tuneSplit y vs).2 = Except.ok i ∧
      ∀ kv ∈ permAt i, pmapGet st'.params kv.1 = some kv.2 := by
  obtain ⟨per, i, hper, hsel, rfl⟩ := (hw_tune_ok_iff e st st' y p vs).mp hok
  have hi : i < params_permutations.length :=
    tuneSel_ok_lt _ _ _ _ _ hsel
  refine ⟨?_, pmapGet_set_self _ _ _, i, hi, hsel, tuneParams_get_winner st.params i hi⟩
  have hk := tuneParams_keys st.params i hi hkeys
  rw [hk]
  rfl

/-- Witness for C5 at a concrete successful `_tune` run. -/
theorem c5_witness :
    tunedExample.params.map Prod.fst =
      ["tuned", "trend", "seasonal", "damped", "use_boxcox", "remove_bias"] ∧
    pmapGet tunedExample.params "tuned" = some (PVal.b true) ∧
    ∃ i, i < params_permutations.length ∧
      tuneSel oracleConstFin (tuneSplit ([] : List ℚ) none).1 tunedExample.period
        (tuneSplit ([] : List ℚ) none).2 = Except.ok i ∧
      ∀ kv ∈ permAt i, pmapGet tunedExample.params kv.1 = some kv.2 :=
  c5_params_keys_tuned oracleConstFin (initState Unit) tunedExample []
    (PeriodArg.int 12) none rfl rfl

/-- Claim C7: whenever `fit` returns, it has stored the full input series
on the instance, run the tuning harness (whose selection succeeded), and
re-fitted the external model on the entire series using exactly the
winning hyperparameters stored in `params`, storing the fitted object on
the instance. -/
theorem c7_fit_refits_full_series {μ : Type} (e : CandEval)
    (ef : List ℚ → Nat → Option PVal → Option PVal → Option PVal → Option PVal →
      Option PVal → μ)
    (st st' : HWState μ) (y : List ℚ) (p : PeriodArg) (vs : Option Nat)
    (hok : hw_fit e ef st y p vs = Except.ok st') :
    st'.y = y ∧
    resolvePeriod p = some st'.period ∧
    (∃ i, i < params_permutations.length ∧
      tuneSel e (tuneSplit y vs).1 st'.period (tuneSplit y vs).2 = Except.ok i ∧
      ∀ kv ∈ permAt i, pmapGet st'.params kv.1 = some kv.2) ∧
    st'.model = some (ef y st'.period
      (pmapGet st'.params "trend") (pmapGet st'.params "seasonal")
      (pmapGet st'.params "damped") (pmapGet st'.params "use_boxcox")
      (pmapGet st'.params "remove_bias")) := by
  unfold hw_fit at hok
  split at hok
  · cases hok
  · rename_i st2 htune
    have hst : _ = st' := Except.ok.inj hok
    subst hst
    obtain ⟨per, i, hper, hsel, hst2⟩ :=
      (hw_tune_ok_iff e _ st2 y p vs).mp htune
    subst hst2
    have hi : i < params_permutations.length :=
      tuneSel_ok_lt _ _ _ _ _ hsel
    exact ⟨rfl, hper, ⟨i, hi, hsel, tuneParams_get_winner _ i hi⟩, rfl⟩

/-- Witness for C7 at a concrete successful `fit` run. -/
theorem c7_witness :
    fitExample.y = [1, 2, 3] ∧
    resolvePeriod (PeriodArg.int 12) = some fitExample.period ∧
    (∃ i, i < params_permutations.length ∧
      tuneSel oracleConstFin (tuneSplit [1, 2, 3] none).1 fitExample.period
        (tuneSplit [1, 2, 3] none).2 = Except.ok i ∧
      ∀ kv ∈ permAt i, pmapGet fitExample.params kv.1 = some kv.2) ∧
    fitExample.model = some (unitEf [1, 2, 3] fitExample.period
      (pmapGet fitExample.params "trend") (pmapGet fitExample.params "seasonal")
      (pmapGet fitExample.params "damped") (pmapGet fitExample.params "use_boxcox")
      (pmapGet fitExample.params "remove_bias")) :=
  c7_fit_refits_full_series oracleConstFin unitEf (initState Unit) fitExample
    [1, 2, 3] (PeriodArg.int 12) none rfl

/-- Claim C9: after a successful `fit`, for every horizon `h`, `predict`
returns a sequence of length exactly `h` — given that the external
forecasting routine honours its documented contract of producing one value
per requested step (the external library is out of scope). -/
theorem c9_predict_length {μ : Type} (efc : μ → Nat → List ℚ) (e : CandEval)
    (ef : List ℚ → Nat → Option PVal → Option PVal → Option PVal → Option PVal →
      Option PVal → μ)
    (st st' : HWState μ) (y : List ℚ) (p : PeriodArg) (vs : Option Nat) (h : Nat)
    (hlen : ∀ m n, (efc m n).length = n)
    (hfit : hw_fit e ef st y p vs = Except.ok st') :
    ∃ out, hw_predict efc st' h = some out ∧ out.length = h := by
  unfold hw_fit at hfit
  split at hfit
  · cases hfit
  · rename_i st2 htune
    have hst : _ = st' := Except.ok.inj hfit
    subst hst
    exact ⟨_, rfl, hlen _ h⟩

/-- Witness for C9 at a concrete fitted model and horizon 3. -/
theorem c9_witness :
    ∃ out, hw_predict replicateForecast fitExample 3 = some out ∧ out.length = 3 :=
  c9_predict_length replicateForecast oracleConstFin unitEf (initState Unit)
    fitExample [1, 2, 3] (PeriodArg.int 12) none 3
    (fun _ n => List.length_replicate n 0) rfl

/-- Claim C10 is false as stated: a candidate whose metric evaluation
succeeds with NaN can be selected — here candidate 0 scores NaN, every
other candidate raises (scoring `np.inf`), `np.nanargmin` replaces NaN
with `inf` and returns index 0, the NaN candidate. -/
theorem c10_counterexample :
    oracleNanInf [] 12 [] (permAt 0) = Except.ok Score.nan ∧
    selScore oracleNanInf [] 12 [] = some Score.nan := by
  decide

/-- Claim C10 (amended): a NaN-scored candidate is never selected provided
some recorded score is finite (below `np.inf`); and if every recorded
score is NaN, `_tune` raises an error instead of returning a winner. -/
theorem c10_nan_selection (e : CandEval) (yT : List ℚ) (per : Nat) (yV : List ℚ) :
    ((∃ j, j < (tuneScores e yT per yV).length ∧ ∃ q : ℚ,
        (tuneScores e yT per yV).getD j Score.inf = Score.fin q) →
      ∀ s, selScore e yT per yV = some s → s ≠ Score.nan) ∧
    ((∀ j < (tuneScores e yT per yV).length,
        (tuneScores e yT per yV).getD j Score.inf = Score.nan) →
      tuneSel e yT per yV = Except.error ()) := by
  constructor
  · rintro ⟨j, hj, q, hq⟩ s hs
    have halln : allNan (tuneScores e yT per yV) = false := by
      apply allNan_eq_false_of_getD _ j hj
      rw [hq]
      intro h
      cases h
    obtain ⟨i, hok, hilt, hmin, -⟩ := nanargmin_spec _ halln
    have hsel : tuneSel e yT per yV = Except.ok i := hok
    unfold selScore at hs
    rw [hsel] at hs
    have hseq : (tuneScores e yT per yV).getD i Score.inf = s := Option.some_inj.mp hs
    subst hseq
    intro hnan
    have hjm : j < ((tuneScores e yT per yV).map replaceNanTop).length := by
      rw [List.length_map]
      exact hj
    have h1 : listMin ((tuneScores e yT per yV).map replaceNanTop) ≤ (q : WithTop ℚ) := by
      have h2 := listMin_le_getElem ((tuneScores e yT per yV).map replaceNanTop) j hjm
      rw [← List.getD_eq_getElem _ _ hjm, map_replaceNanTop_getD _ _ hj, hq] at h2
      exact h2
    have h3 : replaceNanTop ((tuneScores e yT per yV).getD i Score.inf) =
        listMin ((tuneScores e yT per yV).map replaceNanTop) := by
      rw [← map_replaceNanTop_getD _ _ hilt]
      exact hmin
    rw [hnan] at h3
    rw [← h3] at h1
    exact WithTop.coe_ne_top (top_le_iff.mp h1)
  · intro hall
    have htrue : allNan (tuneScores e yT per yV) = true := by
      unfold allNan
      rw [List.all_eq_true]
      intro s hsmem
      obtain ⟨k, hk, hks⟩ := List.mem_iff_getElem.mp hsmem
      have hkd := hall k hk
      rw [List.getD_eq_getElem _ _ hk, hks] at hkd
      simp [hkd]
    unfold tuneSel nanargmin
    rw [htrue]
    rfl

/-- Witness for the amended C10: both parts at concrete runs (one with a
finite score present, one with every score NaN). -/
theorem c10_witness :
    (∀ s, selScore oracleConstFin [] 12 [] = some s → s ≠ Score.nan) ∧
    tuneSel oracleAllNan [] 12 [] = Except.error () := by
  constructor
  · exact (c10_nan_selection oracleConstFin [] 12 []).1 ⟨0, by decide, 0, by decide⟩
  · exact (c10_nan_selection oracleAllNan [] 12 []).2 (by decide)

end Tsaugur
